import Mathlib

/-!
Verification of the day-17 constrained directional shortest-path engine
(`src/day-17/src/main.rs`).

The Rust source is embedded shallowly:
* `Position(i64, i64)` becomes a structure over `Int` (the puzzle never
  approaches the `i64` boundaries, so mathematical integers are faithful).
* `u64` costs, heats and step counters become `Nat` (all arithmetic in the
  program is bounded additions of single-digit parsed costs, far from 2^64).
* `HashMap<Position, u64>` (the grid) becomes an association list
  `List (Position × Nat)` with first-match lookup; a `HashMap` is a finite
  key-value store, which the association list models exactly.
* `BTreeSet<Entry>` (the frontier) becomes a strictly sorted `List Entry`
  under the derived `Ord` of `Entry`, i.e. the lexicographic order on
  `(heat, steps, pos, dir)`; `pop_first` is taking the head,
  `insert` is ordered insertion that leaves the list unchanged when the
  element is already present.
* `HashMap<(Position, Direction, u64), u64>` (the cost ledger) becomes a
  function `Position × Direction × Nat → Option Nat` updated pointwise.
* the `while let Some(..) = queue.pop_first()` loop becomes a fuel-indexed
  recursion `runLoop`; `none` means the fuel was exhausted, `some r` that
  the loop finished with result `r`.  `Solves` states that some fuel
  suffices, i.e. that the source loop terminates with result `r`.
-/

namespace Day17

/-- The `GameError` enum of the source (`Parse` payload elided: it is only
produced by the out-of-scope parser). -/
inductive GameError where
  | parse : GameError
  | noKeys : GameError
  | endUnreachable : GameError
deriving DecidableEq, Repr

/-- The `Direction` enum, in source declaration order (`Left, Down, Right, Up`),
which is the order its derived `Ord` uses. -/
inductive Direction where
  | left : Direction
  | down : Direction
  | right : Direction
  | up : Direction
deriving DecidableEq, Repr

/-- The `Turn` enum. -/
inductive Turn where
  | clockwise : Turn
  | counterClockwise : Turn
deriving DecidableEq, Repr

/-- `Direction::turn` from the source: clockwise / counterclockwise quarter
turns. -/
def Direction.turn : Direction → Turn → Direction
  | .right, .clockwise => .down
  | .down, .clockwise => .left
  | .left, .clockwise => .up
  | .up, .clockwise => .right
  | .right, .counterClockwise => .up
  | .down, .counterClockwise => .right
  | .left, .counterClockwise => .down
  | .up, .counterClockwise => .left

/-- Index of a direction in the source declaration order; this is what the
derived Rust `Ord` on `Direction` compares. -/
def Direction.idx : Direction → Nat
  | .left => 0
  | .down => 1
  | .right => 2
  | .up => 3

/-- `Position(i64, i64)` from the source. -/
structure Position where
  x : Int
  y : Int
deriving DecidableEq, Repr

/-- `Position::move_dir` from the source. -/
def Position.move_dir (p : Position) : Direction → Position
  | .right => ⟨p.x + 1, p.y⟩
  | .down => ⟨p.x, p.y + 1⟩
  | .left => ⟨p.x - 1, p.y⟩
  | .up => ⟨p.x, p.y - 1⟩

/-- The `Entry` struct: a frontier element. -/
structure Entry where
  pos : Position
  dir : Direction
  steps : Nat
  heat : Nat
deriving DecidableEq, Repr

/-- The strict order on `Entry` implemented by the source's `Ord for Entry`:
lexicographic on `(heat, steps, pos, dir)`, with `Position` ordered
lexicographically on `(x, y)` (derived `Ord` of a tuple struct) and
`Direction` by declaration order. -/
def Entry.lt (a b : Entry) : Prop :=
  a.heat < b.heat ∨ a.heat = b.heat ∧
    (a.steps < b.steps ∨ a.steps = b.steps ∧
      (a.pos.x < b.pos.x ∨ a.pos.x = b.pos.x ∧
        (a.pos.y < b.pos.y ∨ a.pos.y = b.pos.y ∧
          a.dir.idx < b.dir.idx)))

instance (a b : Entry) : Decidable (Entry.lt a b) := by
  unfold Entry.lt
  exact inferInstance

/-- Ordered insertion into the sorted frontier list, modelling
`BTreeSet::insert`: a duplicate of an existing element is dropped. -/
def qInsert (e : Entry) : List Entry → List Entry
  | [] => [e]
  | x :: xs =>
    if Entry.lt e x then e :: x :: xs
    else if e = x then x :: xs
    else x :: qInsert e xs

/-- The `Game` struct: grid map plus cached maximal coordinates. -/
structure Game where
  map : List (Position × Nat)
  max_x : Int
  max_y : Int

/-- `HashMap::get` on the grid: first-match association-list lookup. -/
def Game.find (g : Game) (p : Position) : Option Nat :=
  go g.map
where
  go : List (Position × Nat) → Option Nat
    | [] => none
    | (q, c) :: rest => if p = q then some c else go rest

/-- `Position(self.max_x, self.max_y)`: the goal cell. -/
def Game.endPos (g : Game) : Position :=
  ⟨g.max_x, g.max_y⟩

/-- `Game::calculate_next_entry` from the source: one candidate transition
(straight when `turn = none`, turning otherwise), `none` when the target
cell is off the grid. -/
def Game.calculate_next_entry (g : Game) (pos : Position) (dir : Direction)
    (heat steps : Nat) (turn : Option Turn) : Option Entry :=
  let next_dir := match turn with
    | some t => dir.turn t
    | none => dir
  let next_steps := match turn with
    | some _ => 1
    | none => steps + 1
  let next_pos := pos.move_dir next_dir
  match g.find next_pos with
  | some next_tile_heat => some ⟨next_pos, next_dir, next_steps, heat + next_tile_heat⟩
  | none => none

/-- Keys of the cost ledger: `(Position, Direction, u64)`. -/
abbrev ResKey := Position × Direction × Nat

/-- The cost ledger `HashMap<(Position, Direction, u64), u64>`. -/
abbrev Results := ResKey → Option Nat

/-- `HashMap::insert` on the ledger. -/
def resInsert (res : Results) (k : ResKey) (v : Nat) : Results :=
  fun k' => if k' = k then some v else res k'

/-- The successor entries the loop body inserts into the frontier for a popped
entry `e`, in source order: the straight extension (guarded by
`steps < max_steps`), then the two turns (guarded by `steps >= min_steps`). -/
def succEntries (g : Game) (minS maxS : Nat) (e : Entry) : List Entry :=
  (if e.steps < maxS then
    (g.calculate_next_entry e.pos e.dir e.heat e.steps none).toList
  else []) ++
  (if minS ≤ e.steps then
    [Turn.clockwise, Turn.counterClockwise].filterMap
      (fun t => g.calculate_next_entry e.pos e.dir e.heat e.steps (some t))
  else [])

/-- The staleness check of the loop: the ledger already holds this exact state
at an equal-or-lower cost (`if let Some(&existing_heat) = results.get(..)
{ if existing_heat <= heat { continue } }`). -/
def stale (res : Results) (k : ResKey) (h : Nat) : Bool :=
  match res k with
  | some existing => existing ≤ h
  | none => false

/-- One iteration of the `while` loop of `Game::puzzle` acting on the popped
entry `e` and the rest of the frontier: either the loop returns (`.inl`,
the goal was accepted), or it continues with an updated frontier and ledger
(`.inr`).  The branch structure mirrors the source exactly: the
containment check, the staleness check, then — under `steps >= min_steps` —
the goal test and the ledger insertion, then the successor generation. -/
def loopIter (g : Game) (minS maxS : Nat) (e : Entry) (rest : List Entry)
    (res : Results) : Except GameError Nat ⊕ (List Entry × Results) :=
  if (g.find e.pos).isNone then .inr (rest, res)
  else if stale res (e.pos, e.dir, e.steps) e.heat then .inr (rest, res)
  else if minS ≤ e.steps ∧ e.pos = g.endPos then .inl (.ok e.heat)
  else
    let res' := if minS ≤ e.steps then resInsert res (e.pos, e.dir, e.steps) e.heat else res
    let q' := (succEntries g minS maxS e).foldl (fun q en => qInsert en q) rest
    .inr (q', res')

/-- The `while let Some(..) = queue.pop_first()` loop of `Game::puzzle`,
indexed by fuel.  `none`: fuel exhausted; `some r`: the loop finished with
the source's result `r` (`.ok heat` from the goal return, or
`.error .endUnreachable` after the frontier emptied). -/
def runLoop (g : Game) (minS maxS : Nat) : Nat → List Entry → Results →
    Option (Except GameError Nat)
  | 0, _, _ => none
  | _ + 1, [], _ => some (.error .endUnreachable)
  | fuel + 1, e :: rest, res =>
    match loopIter g minS maxS e rest res with
    | .inl r => some r
    | .inr (q', res') => runLoop g minS maxS fuel q' res'

/-- The initial frontier of `Game::puzzle`: the two start pseudo-entries at
`(0, 0)` heading `Right` and `Down`, with `steps = 0` and `heat = 0`.
As a `BTreeSet` it is already sorted: the `Down` entry precedes the
`Right` entry in the derived order. -/
def seedQueue : List Entry :=
  [⟨⟨0, 0⟩, .down, 0, 0⟩, ⟨⟨0, 0⟩, .right, 0, 0⟩]

/-- The empty cost ledger. -/
def emptyResults : Results :=
  fun _ => none

/-- `Game::puzzle` with explicit fuel for the search loop. -/
def Game.puzzle (g : Game) (minS maxS fuel : Nat) : Option (Except GameError Nat) :=
  runLoop g minS maxS fuel seedQueue emptyResults

/-- `Solves g minS maxS r`: the source `Game::puzzle(min_steps, max_steps)`
terminates and returns `r` — i.e. some fuel suffices for the embedded
loop. -/
def Solves (g : Game) (minS maxS : Nat) (r : Except GameError Nat) : Prop :=
  ∃ fuel, g.puzzle minS maxS fuel = some r

/-- The ledger key of a frontier entry: `(pos, dir, steps)`. -/
def Entry.key (e : Entry) : ResKey :=
  (e.pos, e.dir, e.steps)

/-- The opposite of a direction — the spec's notion of reversal ("each
direction has exactly one opposite").  The source has no such function;
this is the spec-side definition the no-reversal property is stated
against. -/
def Direction.opposite : Direction → Direction
  | .left => .right
  | .right => .left
  | .up => .down
  | .down => .up


/-- All ledger keys the search can ever record: a grid position, one of the
four directions, and a step counter at most `max maxS 1` (the largest
value `steps` can carry on the frontier).  Used only to measure
termination. -/
def allKeys (g : Game) (maxS : Nat) : List ResKey :=
  (g.map.map Prod.fst).flatMap fun p =>
    [Direction.left, Direction.down, Direction.right, Direction.up].flatMap fun d =>
      (List.range (max maxS 1 + 1)).map fun s => (p, d, s)

/-- Number of recordable keys not yet in the ledger — the primary component of
the termination measure. -/
def unrecCount (g : Game) (maxS : Nat) (res : Results) : Nat :=
  (allKeys g maxS).countP fun k => (res k).isNone

/-- Total outstanding below-minimum run slack on the frontier — the secondary
component of the termination measure. -/
def minSlack (minS : Nat) (q : List Entry) : Nat :=
  (q.map fun e => minS - e.steps).sum

/-- `PathTo g p h`: some sequence of unit moves starting at the start cell
`(0, 0)` reaches `p`, every entered cell is on the grid, and `h` is the sum
of the grid costs of the entered cells — the start cell's own cost is
never part of the sum (the empty path has accumulated cost 0). -/
inductive PathTo (g : Game) : Position → Nat → Prop where
  | start : PathTo g ⟨0, 0⟩ 0
  | step {p : Position} {h : Nat} (d : Direction) {c : Nat} :
      PathTo g p h → g.find (p.move_dir d) = some c → PathTo g (p.move_dir d) (h + c)

/-- Spec-side definition of the legal augmented states: `Legal g minS maxS p d
s h` holds when some path that obeys the run-length and no-reversal rules
of the spec reaches position `p` heading `d` with current run `s` and
accumulated cost `h`.  The two start pseudo-states (heading East and South
at `(0, 0)` with run 0 and cost 0) are the roots; a straight continuation
requires `run < maxRun` and increments the run; a turn (always to a
perpendicular direction — `Direction.turn` never yields the same or the
opposite direction) requires `run ≥ minRun` and resets the run to 1; every
entered cell must be on the grid and contributes its cost. -/
inductive Legal (g : Game) (minS maxS : Nat) : Position → Direction → Nat → Nat → Prop where
  | seedRight : Legal g minS maxS ⟨0, 0⟩ .right 0 0
  | seedDown : Legal g minS maxS ⟨0, 0⟩ .down 0 0
  | straight {p : Position} {d : Direction} {s h c : Nat} :
      Legal g minS maxS p d s h → s < maxS → g.find (p.move_dir d) = some c →
      Legal g minS maxS (p.move_dir d) d (s + 1) (h + c)
  | turn {p : Position} {d : Direction} {s h c : Nat} (t : Turn) :
      Legal g minS maxS p d s h → minS ≤ s → g.find (p.move_dir (d.turn t)) = some c →
      Legal g minS maxS (p.move_dir (d.turn t)) (d.turn t) 1 (h + c)

/-- Spec-side: `c` is the accumulated cost of some legal path from the start
to the goal cell that is allowed to stop there (final run ≥ `minRun`). -/
def GoalCost (g : Game) (minS maxS c : Nat) : Prop :=
  ∃ d s, Legal g minS maxS g.endPos d s c ∧ minS ≤ s

/-- Spec-side grid well-formedness: the grid is a non-empty rectangle — a cell
lookup succeeds exactly on `[0, max_x] × [0, max_y]`, and both maxima are
at least 0 (at least one row and one column). -/
def Rect (g : Game) : Prop :=
  0 ≤ g.max_x ∧ 0 ≤ g.max_y ∧
  ∀ p : Position, (∃ c, g.find p = some c) ↔
    (0 ≤ p.x ∧ p.x ≤ g.max_x ∧ 0 ≤ p.y ∧ p.y ≤ g.max_y)

/-- Coverage of a ledger key `k` at budget `w` by the current frontier `q` and
ledger `res` (proof device for optimality): either the frontier holds an
entry for exactly this key at heat ≤ `w`, or the ledger holds this key at
value ≤ `w`, or (chain case, fuel-bounded by `minRun - steps`) the key's
run is still below `minRun` — so the only move out of it is straight — and
whenever that straight move stays on the grid its target key is covered at
the correspondingly increased budget. -/
def Dcov (g : Game) (minS maxS : Nat) (q : List Entry) (res : Results) :
    Nat → ResKey → Nat → Prop
  | 0, k, w =>
      (∃ e ∈ q, e.key = k ∧ e.heat ≤ w) ∨ (∃ v, res k = some v ∧ v ≤ w)
  | fc + 1, k, w =>
      (∃ e ∈ q, e.key = k ∧ e.heat ≤ w) ∨ (∃ v, res k = some v ∧ v ≤ w) ∨
      (k.2.2 < minS ∧ ∀ c, k.2.2 < maxS → g.find (k.1.move_dir k.2.1) = some c →
        Dcov g minS maxS q res fc (k.1.move_dir k.2.1, k.2.1, k.2.2 + 1) (w + c))

/-- `Dcov` at its canonical fuel `minRun - steps`. -/
def DcovAt (g : Game) (minS maxS : Nat) (q : List Entry) (res : Results)
    (k : ResKey) (w : Nat) : Prop :=
  Dcov g minS maxS q res (minS - k.2.2) k w

/-- Like `Dcov`, but the frontier disjunct forgets the key: some frontier
entry has heat ≤ `w`.  This is the form the final optimality argument
consumes (the popped head is below every frontier heat). -/
def Chase (g : Game) (minS maxS : Nat) (q : List Entry) (res : Results) :
    Nat → ResKey → Nat → Prop
  | 0, k, w =>
      (∃ e ∈ q, e.heat ≤ w) ∨ (∃ v, res k = some v ∧ v ≤ w)
  | fc + 1, k, w =>
      (∃ e ∈ q, e.heat ≤ w) ∨ (∃ v, res k = some v ∧ v ≤ w) ∨
      (k.2.2 < minS ∧ ∀ c, k.2.2 < maxS → g.find (k.1.move_dir k.2.1) = some c →
        Chase g minS maxS q res fc (k.1.move_dir k.2.1, k.2.1, k.2.2 + 1) (w + c))

/-- Ledger closure: every recorded key has all its legal outgoing transitions
(straight under the `steps < max_steps` gate, turns under the
`steps ≥ min_steps` gate) covered at budget `recorded value + edge cost`. -/
def ResClosed (g : Game) (minS maxS : Nat) (q : List Entry) (res : Results) : Prop :=
  ∀ p d s v, res (p, d, s) = some v →
    (∀ c, s < maxS → g.find (p.move_dir d) = some c →
      DcovAt g minS maxS q res (p.move_dir d, d, s + 1) (v + c)) ∧
    (∀ t c, minS ≤ s → g.find (p.move_dir (Direction.turn d t)) = some c →
      DcovAt g minS maxS q res (p.move_dir (Direction.turn d t), Direction.turn d t, 1) (v + c))

/-- No goal-accepting key (goal position, run ≥ `minRun`) is ever recorded in
the ledger: the loop would have returned instead of recording it. -/
def GoalFree (g : Game) (minS : Nat) (res : Results) : Prop :=
  ∀ d s, minS ≤ s → res (g.endPos, d, s) = none

/-- A legal state is covered when some prefix of one of its legal derivations
is covered (`here`), the remaining steps being legal transitions. -/
inductive Cov (g : Game) (minS maxS : Nat) (q : List Entry) (res : Results) :
    Position → Direction → Nat → Nat → Prop where
  | here {p : Position} {d : Direction} {s h : Nat} :
      DcovAt g minS maxS q res (p, d, s) h → Cov g minS maxS q res p d s h
  | straight {p : Position} {d : Direction} {s h c : Nat} :
      Cov g minS maxS q res p d s h → s < maxS → g.find (p.move_dir d) = some c →
      Cov g minS maxS q res (p.move_dir d) d (s + 1) (h + c)
  | turn {p : Position} {d : Direction} {s h c : Nat} (t : Turn) :
      Cov g minS maxS q res p d s h → minS ≤ s → g.find (p.move_dir (d.turn t)) = some c →
      Cov g minS maxS q res (p.move_dir (d.turn t)) (d.turn t) 1 (h + c)

/-- The full invariant of the search loop used for the optimality proof:
frontier sorted; ledger values below all frontier heats; frontier step
counters bounded; every frontier entry a legal state; no goal-accepting
key recorded; ledger closed under legal transitions; every legal state
covered through some derivation prefix. -/
def LoopInv (g : Game) (minS maxS : Nat) (q : List Entry) (res : Results) : Prop :=
  q.Pairwise Entry.lt ∧
  (∀ x ∈ q, ∀ k v, res k = some v → v ≤ x.heat) ∧
  (∀ x ∈ q, x.steps ≤ max maxS 1) ∧
  (∀ x ∈ q, Legal g minS maxS x.pos x.dir x.steps x.heat) ∧
  GoalFree g minS res ∧
  ResClosed g minS maxS q res ∧
  (∀ p d s h, Legal g minS maxS p d s h → Cov g minS maxS q res p d s h)

/-! ### Concrete grids used as test inputs -/

/-- A 1×1 grid whose single cell `(0,0)` has cost `c`. -/
def game1 (c : Nat) : Game :=
  ⟨[(⟨0, 0⟩, c)], 0, 0⟩

/-- A 2×2 grid with every cell of cost 1. -/
def game2 : Game :=
  ⟨[(⟨0, 0⟩, 1), (⟨1, 0⟩, 1), (⟨0, 1⟩, 1), (⟨1, 1⟩, 1)], 1, 1⟩

end Day17

namespace Day17

/-! ### Claim section helpers and claim theorems are below; all definitions
are above. -/

/-! ### Basic facts about the frontier order and frontier insertion -/

theorem Direction.idx_inj : ∀ {a b : Direction}, a.idx = b.idx → a = b := by
  intro a b h
  cases a <;> cases b <;> first
    | rfl
    | simp [Direction.idx] at h

theorem Entry.lt_irrefl (a : Entry) : ¬ Entry.lt a a := by
  unfold Entry.lt
  omega

theorem Entry.lt_trans {a b c : Entry} (h₁ : Entry.lt a b) (h₂ : Entry.lt b c) :
    Entry.lt a c := by
  unfold Entry.lt at h₁ h₂ ⊢
  omega

theorem Entry.lt_heat_le {a b : Entry} (h : Entry.lt a b) : a.heat ≤ b.heat := by
  unfold Entry.lt at h
  omega

theorem Entry.eq_of_not_lt {a b : Entry} (h₁ : ¬ Entry.lt a b) (h₂ : ¬ Entry.lt b a) :
    a = b := by
  have hc : a.heat = b.heat ∧ a.steps = b.steps ∧ a.pos.x = b.pos.x ∧
      a.pos.y = b.pos.y ∧ a.dir.idx = b.dir.idx := by
    unfold Entry.lt at h₁ h₂
    omega
  obtain ⟨⟨ax, ay⟩, ad, as, ah⟩ := a
  obtain ⟨⟨bx, by'⟩, bd, bs, bh⟩ := b
  obtain ⟨h1, h2, h3, h4, h5⟩ := hc
  simp only at h1 h2 h3 h4 h5
  subst h1 h2 h3 h4
  simp [Direction.idx_inj h5]

theorem mem_qInsert {x e : Entry} : ∀ {q : List Entry},
    x ∈ qInsert e q ↔ x = e ∨ x ∈ q := by
  intro q
  induction q with
  | nil => simp [qInsert]
  | cons y ys ih =>
    simp only [qInsert]
    split
    · simp [List.mem_cons]
    · split
      next heq =>
        subst heq
        simp only [List.mem_cons]
        tauto
      next =>
        simp only [List.mem_cons, ih]
        tauto

theorem Entry.lt_of_not_lt_of_ne {a b : Entry} (h₁ : ¬ Entry.lt a b) (h₂ : ¬ b = a) :
    Entry.lt b a := by
  by_contra h
  exact h₂ (Entry.eq_of_not_lt h h₁)

theorem qInsert_sorted {e : Entry} : ∀ {q : List Entry},
    q.Pairwise Entry.lt → (qInsert e q).Pairwise Entry.lt := by
  intro q
  induction q with
  | nil =>
    intro _
    simp [qInsert]
  | cons y ys ih =>
    intro hs
    rw [List.pairwise_cons] at hs
    obtain ⟨hy, hys⟩ := hs
    simp only [qInsert]
    split
    next hlt =>
      refine List.Pairwise.cons ?_ (List.Pairwise.cons hy hys)
      intro z hz
      rcases List.mem_cons.mp hz with rfl | hz'
      · exact hlt
      · exact Entry.lt_trans hlt (hy z hz')
    next hnlt =>
      split
      next heq =>
        exact List.Pairwise.cons hy hys
      next hne =>
        refine List.Pairwise.cons ?_ (ih hys)
        intro z hz
        rcases mem_qInsert.mp hz with rfl | hz'
        · exact Entry.lt_of_not_lt_of_ne hnlt (fun h => hne h.symm)
        · exact hy z hz'

theorem length_qInsert {e : Entry} : ∀ {q : List Entry},
    (qInsert e q).length ≤ q.length + 1 := by
  intro q
  induction q with
  | nil => simp [qInsert]
  | cons y ys ih =>
    simp only [qInsert]
    split
    · simp
    · split
      · simp
      · simpa using Nat.succ_le_succ ih

theorem mem_foldl_qInsert {x : Entry} : ∀ {l : List Entry} {q : List Entry},
    x ∈ l.foldl (fun q en => qInsert en q) q ↔ x ∈ q ∨ x ∈ l := by
  intro l
  induction l with
  | nil => simp
  | cons a as ih =>
    intro q
    simp only [List.foldl_cons, ih, mem_qInsert, List.mem_cons]
    tauto

theorem foldl_qInsert_sorted : ∀ {l : List Entry} {q : List Entry},
    q.Pairwise Entry.lt → (l.foldl (fun q en => qInsert en q) q).Pairwise Entry.lt := by
  intro l
  induction l with
  | nil => exact fun h => h
  | cons a as ih =>
    intro q hq
    exact ih (qInsert_sorted hq)

/-! ### Characterizations of the transition generator and the loop body -/

theorem cne_none_iff {g : Game} {pos : Position} {dir : Direction}
    {heat steps : Nat} {en : Entry} :
    g.calculate_next_entry pos dir heat steps none = some en ↔
    ∃ c, g.find (pos.move_dir dir) = some c ∧
      en = ⟨pos.move_dir dir, dir, steps + 1, heat + c⟩ := by
  unfold Game.calculate_next_entry
  cases hf : g.find (pos.move_dir dir) with
  | none => simp [hf]
  | some c =>
    simp only [hf]
    constructor
    · intro h
      exact ⟨c, rfl, (Option.some_inj.mp h).symm⟩
    · rintro ⟨c', hc', rfl⟩
      simp only [Option.some_inj] at hc' ⊢
      rw [hc']

theorem cne_turn_iff {g : Game} {pos : Position} {dir : Direction}
    {heat steps : Nat} {t : Turn} {en : Entry} :
    g.calculate_next_entry pos dir heat steps (some t) = some en ↔
    ∃ c, g.find (pos.move_dir (dir.turn t)) = some c ∧
      en = ⟨pos.move_dir (dir.turn t), dir.turn t, 1, heat + c⟩ := by
  unfold Game.calculate_next_entry
  cases hf : g.find (pos.move_dir (dir.turn t)) with
  | none => simp [hf]
  | some c =>
    simp only [hf]
    constructor
    · intro h
      exact ⟨c, rfl, (Option.some_inj.mp h).symm⟩
    · rintro ⟨c', hc', rfl⟩
      simp only [Option.some_inj] at hc' ⊢
      rw [hc']

/-- Membership in the successor list: either the straight extension (under the
`steps < max_steps` gate) or one of the two turns (under the
`steps >= min_steps` gate). -/
theorem mem_succEntries {g : Game} {minS maxS : Nat} {e en : Entry} :
    en ∈ succEntries g minS maxS e ↔
    (e.steps < maxS ∧ g.calculate_next_entry e.pos e.dir e.heat e.steps none = some en) ∨
    (minS ≤ e.steps ∧ ∃ t, g.calculate_next_entry e.pos e.dir e.heat e.steps (some t) = some en) := by
  unfold succEntries
  rw [List.mem_append]
  constructor
  · rintro (h | h)
    · left
      split at h
      next hlt =>
        cases hc : g.calculate_next_entry e.pos e.dir e.heat e.steps none with
        | none => rw [hc] at h; simp at h
        | some en' =>
          rw [hc] at h
          simp only [Option.toList_some, List.mem_singleton] at h
          exact ⟨hlt, congrArg some h.symm⟩
      next => simp at h
    · right
      split at h
      next hge =>
        simp only [List.mem_filterMap] at h
        obtain ⟨t, _, ht⟩ := h
        exact ⟨hge, t, ht⟩
      next => simp at h
  · rintro (⟨hlt, hc⟩ | ⟨hge, t, ht⟩)
    · left
      rw [if_pos hlt, hc]
      simp
    · right
      rw [if_pos hge]
      simp only [List.mem_filterMap]
      refine ⟨t, ?_, ht⟩
      cases t <;> simp

/-- Case analysis of one loop iteration that continues: either the popped entry
was skipped (off-grid or stale), or it was processed: non-goal, recorded
when `steps >= min_steps`, and its successors inserted. -/
theorem loopIter_inr_spec {g : Game} {minS maxS : Nat} {e : Entry}
    {rest : List Entry} {res : Results} {q' : List Entry} {res' : Results}
    (h : loopIter g minS maxS e rest res = .inr (q', res')) :
    (((g.find e.pos).isNone = true ∨ stale res e.key e.heat = true) ∧
      q' = rest ∧ res' = res) ∨
    ((g.find e.pos).isNone = false ∧ stale res e.key e.heat = false ∧
      ¬(minS ≤ e.steps ∧ e.pos = g.endPos) ∧
      q' = (succEntries g minS maxS e).foldl (fun q en => qInsert en q) rest ∧
      res' = if minS ≤ e.steps then resInsert res e.key e.heat else res) := by
  unfold loopIter at h
  by_cases h1 : (g.find e.pos).isNone = true
  · rw [if_pos h1] at h
    simp only [Sum.inr.injEq, Prod.mk.injEq] at h
    exact Or.inl ⟨Or.inl h1, h.1.symm, h.2.symm⟩
  · rw [if_neg h1] at h
    by_cases h2 : stale res (e.pos, e.dir, e.steps) e.heat = true
    · rw [if_pos h2] at h
      simp only [Sum.inr.injEq, Prod.mk.injEq] at h
      exact Or.inl ⟨Or.inr h2, h.1.symm, h.2.symm⟩
    · rw [if_neg h2] at h
      by_cases h3 : minS ≤ e.steps ∧ e.pos = g.endPos
      · rw [if_pos h3] at h
        cases h
      · rw [if_neg h3] at h
        simp only [Sum.inr.injEq, Prod.mk.injEq] at h
        refine Or.inr ⟨?_, ?_, h3, h.1.symm, h.2.symm⟩
        · simpa only [Bool.not_eq_true] using h1
        · simpa only [Bool.not_eq_true] using h2

/-- Characterization of a goal-returning iteration. -/
theorem loopIter_inl_iff {g : Game} {minS maxS : Nat} {e : Entry}
    {rest : List Entry} {res : Results} {r : Except GameError Nat} :
    loopIter g minS maxS e rest res = .inl r ↔
    (g.find e.pos).isNone = false ∧ stale res e.key e.heat = false ∧
      minS ≤ e.steps ∧ e.pos = g.endPos ∧ r = .ok e.heat := by
  unfold loopIter
  by_cases h1 : (g.find e.pos).isNone = true
  · rw [if_pos h1]
    simp [h1]
  · rw [if_neg h1]
    by_cases h2 : stale res (e.pos, e.dir, e.steps) e.heat = true
    · rw [if_pos h2]
      simp only [reduceCtorEq, false_iff, Entry.key]
      intro hcon
      rw [h2] at hcon
      exact absurd hcon.2.1 (by simp)
    · rw [if_neg h2]
      by_cases h3 : minS ≤ e.steps ∧ e.pos = g.endPos
      · rw [if_pos h3]
        simp only [Sum.inl.injEq]
        constructor
        · intro h
          exact ⟨by simpa only [Bool.not_eq_true] using h1,
            by simpa only [Bool.not_eq_true] using h2, h3.1, h3.2, h.symm⟩
        · intro h
          exact h.2.2.2.2.symm
      · rw [if_neg h3]
        simp only [reduceCtorEq, false_iff]
        intro hcon
        exact h3 ⟨hcon.2.2.1, hcon.2.2.2.1⟩

theorem runLoop_zero {g : Game} {minS maxS : Nat} {q : List Entry} {res : Results} :
    runLoop g minS maxS 0 q res = none :=
  rfl

theorem runLoop_nil {g : Game} {minS maxS fuel : Nat} {res : Results} :
    runLoop g minS maxS (fuel + 1) [] res = some (.error .endUnreachable) :=
  rfl

theorem runLoop_cons {g : Game} {minS maxS fuel : Nat} {e : Entry}
    {rest : List Entry} {res : Results} :
    runLoop g minS maxS (fuel + 1) (e :: rest) res =
      match loopIter g minS maxS e rest res with
      | .inl r => some r
      | .inr (q', res') => runLoop g minS maxS fuel q' res' :=
  rfl

/-- The loop result is stable under adding fuel. -/
theorem runLoop_mono {g : Game} {minS maxS : Nat} :
    ∀ {fuel : Nat} {q : List Entry} {res : Results} {r : Except GameError Nat},
      runLoop g minS maxS fuel q res = some r →
      ∀ {fuel'}, fuel ≤ fuel' → runLoop g minS maxS fuel' q res = some r := by
  intro fuel
  induction fuel with
  | zero =>
    intro q res r h
    simp [runLoop] at h
  | succ n ih =>
    intro q res r h fuel' hle
    obtain ⟨m, rfl⟩ : ∃ m, fuel' = m + 1 := by
      cases fuel' with
      | zero => omega
      | succ m => exact ⟨m, rfl⟩
    cases q with
    | nil =>
      simpa [runLoop] using h
    | cons e rest =>
      simp only [runLoop] at h ⊢
      cases hit : loopIter g minS maxS e rest res with
      | inl r' =>
        simpa [hit] using h
      | inr p =>
        rw [hit] at h
        exact ih h (by omega)

end Day17

namespace Day17

/-- The only error value the search loop ever produces is `EndUnreachable`. -/
theorem runLoop_error_eq (g : Game) (minS maxS : Nat) :
    ∀ (fuel : Nat) (q : List Entry) (res : Results) (e : GameError),
      runLoop g minS maxS fuel q res = some (.error e) → e = .endUnreachable := by
  intro fuel
  induction fuel with
  | zero =>
    intro q res e h
    rw [runLoop_zero] at h
    cases h
  | succ n ih =>
    intro q res e h
    cases q with
    | nil =>
      rw [runLoop_nil, Option.some_inj] at h
      injection h with h'
      exact h'.symm
    | cons x rest =>
      rw [runLoop_cons] at h
      cases hit : loopIter g minS maxS x rest res with
      | inl r =>
        rw [hit] at h
        have hr := (loopIter_inl_iff.mp hit).2.2.2.2
        rw [Option.some_inj] at h
        rw [h] at hr
        cases hr
      | inr p =>
        rw [hit] at h
        exact ih p.1 p.2 e h

/-! ### Claims C2 – C8 -/

/-- C2: On a 1×1 grid (start equals goal), `puzzle` with `min_steps = 0`
returns cost 0 (no moves taken), and for every `min_steps > 0` it returns
the `EndUnreachable` failure — for every cell cost and every
`max_steps`. -/
theorem C2_one_by_one_grid (c minS maxS : Nat) :
    (minS = 0 → Solves (game1 c) minS maxS (.ok 0)) ∧
    (0 < minS → Solves (game1 c) minS maxS (.error .endUnreachable)) := by
  constructor
  · rintro rfl
    exact ⟨1, rfl⟩
  · intro hpos
    have hnle : ¬ (minS ≤ 0) := by omega
    have hfind : (game1 c).find ⟨0, 0⟩ = some c := rfl
    have hs1 : succEntries (game1 c) minS maxS ⟨⟨0, 0⟩, .down, 0, 0⟩ = [] := by
      unfold succEntries
      rw [if_neg hnle]
      have hc : (game1 c).calculate_next_entry ⟨0, 0⟩ .down 0 0 none = none := rfl
      simp [hc]
    have hs2 : succEntries (game1 c) minS maxS ⟨⟨0, 0⟩, .right, 0, 0⟩ = [] := by
      unfold succEntries
      rw [if_neg hnle]
      have hc : (game1 c).calculate_next_entry ⟨0, 0⟩ .right 0 0 none = none := rfl
      simp [hc]
    have l1 : loopIter (game1 c) minS maxS ⟨⟨0, 0⟩, .down, 0, 0⟩
        [⟨⟨0, 0⟩, .right, 0, 0⟩] emptyResults =
        .inr ([⟨⟨0, 0⟩, .right, 0, 0⟩], emptyResults) := by
      unfold loopIter
      simp [hfind, stale, emptyResults, hnle, hs1]
    have l2 : loopIter (game1 c) minS maxS ⟨⟨0, 0⟩, .right, 0, 0⟩ [] emptyResults =
        .inr ([], emptyResults) := by
      unfold loopIter
      simp [hfind, stale, emptyResults, hnle, hs2]
    refine ⟨3, ?_⟩
    show runLoop (game1 c) minS maxS (2 + 1)
      (⟨⟨0, 0⟩, .down, 0, 0⟩ :: [⟨⟨0, 0⟩, .right, 0, 0⟩]) emptyResults = _
    rw [runLoop_cons, l1]
    show runLoop (game1 c) minS maxS (1 + 1) (⟨⟨0, 0⟩, .right, 0, 0⟩ :: []) emptyResults = _
    rw [runLoop_cons, l2]
    exact runLoop_nil

/-- Witness for C2 at concrete inputs: cost 7 cell, both configurations. -/
theorem C2_witness :
    Solves (game1 7) 0 5 (.ok 0) ∧ Solves (game1 7) 2 5 (.error .endUnreachable) :=
  ⟨(C2_one_by_one_grid 7 0 5).1 rfl, (C2_one_by_one_grid 7 2 5).2 (by omega)⟩

/-- C3 counterexample: the run-0 start pseudo-state is NOT exempt from the
`run ≥ minRun` turn gate.  On the 2×2 unit grid with `min_steps = 1`, the
clockwise turn from the start pseudo-state heading Right is a legal
in-bounds transition, yet the loop body generates no turn from it — the
gate `steps >= min_steps` blocks `run = 0` states when `min_steps ≥ 1`. -/
theorem C3_counterexample :
    (⟨⟨0, 1⟩, .down, 1, 1⟩ : Entry) ∉ succEntries game2 1 3 ⟨⟨0, 0⟩, .right, 0, 0⟩ ∧
    game2.calculate_next_entry ⟨0, 0⟩ .right 0 0 (some .clockwise) =
      some ⟨⟨0, 1⟩, .down, 1, 1⟩ := by
  constructor
  · decide
  · rfl

/-- C3 amended: run-0 start pseudo-states are subject to the same
`run ≥ minRun` turn gate as every other state (a direction-changing
successor of the run-0 start state exists only when `minRun ≤ 0`); the
very first move of the search is nevertheless never blocked by `minRun`
when `maxRun ≥ 1`, because both principal directions are seeded and their
first cells are reached through the straight branch. -/
theorem C3_amended_first_move (g : Game) (minS maxS : Nat) (hmax : 1 ≤ maxS) :
    (∀ en ∈ succEntries g minS maxS ⟨⟨0, 0⟩, .right, 0, 0⟩,
      en.dir ≠ .right → minS ≤ 0) ∧
    (∀ c, g.find ((⟨0, 0⟩ : Position).move_dir .right) = some c →
      (⟨(⟨0, 0⟩ : Position).move_dir .right, .right, 1, 0 + c⟩ : Entry) ∈
        succEntries g minS maxS ⟨⟨0, 0⟩, .right, 0, 0⟩) ∧
    (∀ c, g.find ((⟨0, 0⟩ : Position).move_dir .down) = some c →
      (⟨(⟨0, 0⟩ : Position).move_dir .down, .down, 1, 0 + c⟩ : Entry) ∈
        succEntries g minS maxS ⟨⟨0, 0⟩, .down, 0, 0⟩) := by
  refine ⟨?_, ?_, ?_⟩
  · intro en hen hdir
    rcases mem_succEntries.mp hen with ⟨_, hc⟩ | ⟨hge, _⟩
    · obtain ⟨c, _, rfl⟩ := cne_none_iff.mp hc
      exact absurd rfl hdir
    · exact hge
  · intro c hc
    refine mem_succEntries.mpr (Or.inl ⟨by simpa using hmax, ?_⟩)
    exact cne_none_iff.mpr ⟨c, hc, rfl⟩
  · intro c hc
    refine mem_succEntries.mpr (Or.inl ⟨by simpa using hmax, ?_⟩)
    exact cne_none_iff.mpr ⟨c, hc, rfl⟩

/-- Witness for C3's amended theorem: on the 2×2 unit grid with
`min_steps = 3` the straight first move from the Right seed is generated. -/
theorem C3_witness :
    (⟨(⟨0, 0⟩ : Position).move_dir .right, .right, 1, 0 + 1⟩ : Entry) ∈
      succEntries game2 3 3 ⟨⟨0, 0⟩, .right, 0, 0⟩ :=
  (C3_amended_first_move game2 3 3 (by omega)).2.1 1 rfl

/-- C4 counterexample: with `max_steps = 0 < 1` (an invalid configuration per
the spec) on the 2×2 unit grid, `puzzle` does not reject the input: the
search loop runs and returns the numeric cost 2. -/
theorem C4_counterexample : Solves game2 0 0 (.ok 2) :=
  ⟨10, rfl⟩

/-- C4 amended: `puzzle` performs no configuration validation whatsoever: the
search loop begins for every `(min_steps, max_steps)` — there is no
invalid-configuration variant in `GameError`, and the only error the
search loop can ever produce is `EndUnreachable`. -/
theorem C4_no_configuration_validation (g : Game) (minS maxS : Nat) :
    ∀ (fuel : Nat) (q : List Entry) (res : Results) (e : GameError),
      runLoop g minS maxS fuel q res = some (.error e) → e = .endUnreachable :=
  fun fuel q res e h => runLoop_error_eq g minS maxS fuel q res e h

/-- Witness for C4's amended theorem at a concrete run that errors. -/
theorem C4_witness :
    (game1 5).puzzle 1 3 5 = some (.error .endUnreachable) ∧
      GameError.endUnreachable = GameError.endUnreachable :=
  ⟨rfl, C4_no_configuration_validation (game1 5) 1 3 5 seedQueue emptyResults
    .endUnreachable rfl⟩

/-- C5 counterexample: a popped state that passes the staleness check (empty
ledger) and is not accepted as the goal, but whose `run = 1 < minRun = 2`,
is NOT recorded in the cost ledger by the loop iteration. -/
theorem C5_counterexample :
    ∃ q' res', loopIter game2 2 3 ⟨⟨1, 0⟩, .right, 1, 1⟩ [] emptyResults = .inr (q', res') ∧
      stale emptyResults (⟨⟨1, 0⟩, .right, 1, 1⟩ : Entry).key 1 = false ∧
      ¬((⟨⟨1, 0⟩, .right, 1, 1⟩ : Entry).pos = game2.endPos) ∧
      res' (⟨⟨1, 0⟩, .right, 1, 1⟩ : Entry).key = none := by
  refine ⟨[], emptyResults, rfl, rfl, ?_, rfl⟩
  decide

/-- C5 amended: in every loop iteration whose popped state passes the
containment and staleness checks and is not accepted as the goal, the
popped state's cost is recorded in the ledger exactly when its
`run ≥ minRun`; a popped state with `run < minRun` leaves the ledger
unchanged. -/
theorem C5_recording_requires_min_run (g : Game) (minS maxS : Nat) (e : Entry)
    (rest : List Entry) (res : Results) (q' : List Entry) (res' : Results)
    (hmap : (g.find e.pos).isNone = false)
    (hstale : stale res e.key e.heat = false)
    (h : loopIter g minS maxS e rest res = .inr (q', res')) :
    (minS ≤ e.steps → res' e.key = some e.heat) ∧
    (e.steps < minS → res' = res) := by
  rcases loopIter_inr_spec h with ⟨hskip, _, h2⟩ | ⟨_, _, _, _, hres⟩
  · rcases hskip with h1 | h1
    · rw [hmap] at h1
      cases h1
    · rw [hstale] at h1
      cases h1
  · constructor
    · intro hge
      rw [hres, if_pos hge]
      simp [resInsert]
    · intro hlt
      rw [hres, if_neg (by omega)]

/-- Witness for C5's amended theorem: with `min_steps = 0` the popped Down
seed is recorded at its heat 0. -/
theorem C5_witness :
    (resInsert emptyResults (⟨0, 0⟩, Direction.down, 0) 0)
      (⟨⟨0, 0⟩, .down, 0, 0⟩ : Entry).key = some 0 :=
  (C5_recording_requires_min_run game2 0 3 ⟨⟨0, 0⟩, .down, 0, 0⟩ [] emptyResults
    [⟨⟨0, 1⟩, .down, 1, 1⟩, ⟨⟨1, 0⟩, .right, 1, 1⟩]
    (resInsert emptyResults (⟨0, 0⟩, Direction.down, 0) 0)
    rfl rfl rfl).1 (by omega)

/-- C6: every transition that changes direction is generated only from a
popped state with `run ≥ minRun` (the turn branch's gate), and a
goal-position state is accepted — its cost returned — only when its
`run ≥ minRun`. -/
theorem C6_turn_and_goal_gating (g : Game) (minS maxS : Nat) (e : Entry)
    (rest : List Entry) (res : Results) :
    (∀ r, loopIter g minS maxS e rest res = .inl r →
      minS ≤ e.steps ∧ e.pos = g.endPos ∧ r = .ok e.heat) ∧
    (∀ en ∈ succEntries g minS maxS e, en.dir ≠ e.dir → minS ≤ e.steps) := by
  constructor
  · intro r h
    have hh := loopIter_inl_iff.mp h
    exact ⟨hh.2.2.1, hh.2.2.2.1, hh.2.2.2.2⟩
  · intro en hen hdir
    rcases mem_succEntries.mp hen with ⟨_, hc⟩ | ⟨hge, _⟩
    · obtain ⟨c, _, rfl⟩ := cne_none_iff.mp hc
      exact absurd rfl hdir
    · exact hge

/-- Witness for C6 at a concrete accepting iteration (the 1×1 grid with
`min_steps = 0`). -/
theorem C6_witness :
    0 ≤ (⟨⟨0, 0⟩, .down, 0, 0⟩ : Entry).steps ∧
      (⟨⟨0, 0⟩, .down, 0, 0⟩ : Entry).pos = (game1 5).endPos ∧
      (Except.ok 0 : Except GameError Nat) = .ok (⟨⟨0, 0⟩, .down, 0, 0⟩ : Entry).heat :=
  (C6_turn_and_goal_gating (game1 5) 0 3 ⟨⟨0, 0⟩, .down, 0, 0⟩ [] emptyResults).1
    (.ok 0) rfl

/-- C8: the two seed pseudo-states have `run = 0`; every entry a loop
iteration adds to the frontier is a successor entry; and when
`maxRun ≥ 1` every successor entry satisfies `1 ≤ run ≤ maxRun` — so every
state ever placed on the frontier satisfies `1 ≤ run ≤ maxRun` except the
two run-0 seeds. -/
theorem C8_frontier_run_bounds (g : Game) (minS maxS : Nat) (e : Entry)
    (rest : List Entry) (res : Results) :
    (∀ s ∈ seedQueue, s.steps = 0) ∧
    (∀ q' res', loopIter g minS maxS e rest res = .inr (q', res') →
      ∀ en ∈ q', en ∈ rest ∨ en ∈ succEntries g minS maxS e) ∧
    (1 ≤ maxS → ∀ en ∈ succEntries g minS maxS e, 1 ≤ en.steps ∧ en.steps ≤ maxS) := by
  refine ⟨?_, ?_, ?_⟩
  · intro s hs
    rcases List.mem_cons.mp hs with rfl | hs'
    · rfl
    · rcases List.mem_cons.mp hs' with rfl | hs''
      · rfl
      · cases hs''
  · intro q' res' h en hen
    rcases loopIter_inr_spec h with ⟨_, rfl, _⟩ | ⟨_, _, _, hq, _⟩
    · exact Or.inl hen
    · rw [hq] at hen
      rcases mem_foldl_qInsert.mp hen with h' | h'
      · exact Or.inl h'
      · exact Or.inr h'
  · intro hmax en hen
    rcases mem_succEntries.mp hen with ⟨hlt, hc⟩ | ⟨_, t, hc⟩
    · obtain ⟨c, _, rfl⟩ := cne_none_iff.mp hc
      constructor
      · exact Nat.succ_le_succ (Nat.zero_le _)
      · exact hlt
    · obtain ⟨c, _, rfl⟩ := cne_turn_iff.mp hc
      exact ⟨Nat.le_refl 1, hmax⟩

/-- Witness for C8 at a concrete successor entry of the Down seed. -/
theorem C8_witness :
    1 ≤ (⟨⟨0, 1⟩, .down, 1, 1⟩ : Entry).steps ∧
      (⟨⟨0, 1⟩, .down, 1, 1⟩ : Entry).steps ≤ 3 :=
  (C8_frontier_run_bounds game2 0 3 ⟨⟨0, 0⟩, .down, 0, 0⟩ [] emptyResults).2.2
    (by omega) ⟨⟨0, 1⟩, .down, 1, 1⟩ (by decide)


/-- Soundness of accumulated heats: if every frontier entry's heat is the cost
of some path of entered cells from the start, and the loop returns a
numeric cost, then that cost is the cost of such a path to the goal
cell. -/
theorem runLoop_ok_pathTo {g : Game} {minS maxS : Nat} :
    ∀ {fuel : Nat} {q : List Entry} {res : Results} {c : Nat},
      (∀ e ∈ q, PathTo g e.pos e.heat) →
      runLoop g minS maxS fuel q res = some (.ok c) →
      PathTo g g.endPos c := by
  intro fuel
  induction fuel with
  | zero =>
    intro q res c _ h
    rw [runLoop_zero] at h
    cases h
  | succ n ih =>
    intro q res c hq h
    cases q with
    | nil =>
      rw [runLoop_nil, Option.some_inj] at h
      cases h
    | cons e rest =>
      rw [runLoop_cons] at h
      cases hit : loopIter g minS maxS e rest res with
      | inl r =>
        rw [hit] at h
        rw [Option.some_inj] at h
        subst h
        have hh := loopIter_inl_iff.mp hit
        have hpe := hq e (List.mem_cons_self e rest)
        rw [hh.2.2.2.1] at hpe
        have : c = e.heat := by
          have := hh.2.2.2.2
          injection this
        rw [this]
        exact hpe
      | inr p =>
        rw [hit] at h
        obtain ⟨q', res'⟩ := p
        refine ih ?_ h
        intro en hen
        have hrest : ∀ x ∈ rest, PathTo g x.pos x.heat := by
          intro x hx
          exact hq x (List.mem_cons_of_mem e hx)
        rcases loopIter_inr_spec hit with ⟨_, rfl, _⟩ | ⟨_, _, _, hq', _⟩
        · exact hrest en hen
        · rw [hq'] at hen
          rcases mem_foldl_qInsert.mp hen with h' | h'
          · exact hrest en h'
          · have hpe := hq e (List.mem_cons_self e rest)
            rcases mem_succEntries.mp h' with ⟨_, hc⟩ | ⟨_, t, hc⟩
            · obtain ⟨cst, hfind, rfl⟩ := cne_none_iff.mp hc
              exact PathTo.step e.dir hpe hfind
            · obtain ⟨cst, hfind, rfl⟩ := cne_turn_iff.mp hc
              exact PathTo.step (e.dir.turn t) hpe hfind

/-- C7: for every input state and every transition produced by
`Game::calculate_next_entry` (with or without a turn), the resulting
direction is never the opposite of the input state's direction. -/
theorem C7_no_reversal (g : Game) (pos : Position) (dir : Direction)
    (heat steps : Nat) (turn : Option Turn) (en : Entry)
    (h : g.calculate_next_entry pos dir heat steps turn = some en) :
    en.dir ≠ dir.opposite := by
  cases turn with
  | none =>
    obtain ⟨c, hc, rfl⟩ := cne_none_iff.mp h
    cases dir <;> simp [Direction.opposite]
  | some t =>
    obtain ⟨c, hc, rfl⟩ := cne_turn_iff.mp h
    cases dir <;> cases t <;> simp [Direction.opposite, Direction.turn]

/-- Witness for C7 at a concrete transition. -/
theorem C7_witness :
    (⟨⟨1, 0⟩, .right, 1, 1⟩ : Entry).dir ≠ Direction.opposite .right :=
  C7_no_reversal game2 ⟨0, 0⟩ .right 0 0 none ⟨⟨1, 0⟩, .right, 1, 1⟩ rfl

/-- C10: whenever `puzzle` returns a numeric cost, that cost is the sum of the
grid costs of the cells entered along a path of unit moves from `(0, 0)`
to the goal cell, and the start cell's own cost is never included: the two
seed entries carry accumulated cost 0, and cost is added only for the cell
a transition moves into. -/
theorem C10_cost_is_path_sum (g : Game) (minS maxS c : Nat)
    (h : Solves g minS maxS (.ok c)) :
    PathTo g g.endPos c := by
  obtain ⟨fuel, h⟩ := h
  refine runLoop_ok_pathTo ?_ h
  intro e he
  rcases List.mem_cons.mp he with rfl | he'
  · exact PathTo.start
  · rcases List.mem_cons.mp he' with rfl | he''
    · exact PathTo.start
    · cases he''

/-- Witness for C10: the 2×2 unit grid solved with `(0, 3)` yields cost 2,
which is indeed a path sum to the goal. -/
theorem C10_witness : PathTo game2 game2.endPos 2 :=
  C10_cost_is_path_sum game2 0 3 2 ⟨30, rfl⟩

end Day17

namespace Day17

/-! ### Termination of the search loop -/

theorem find_go_mem {p : Position} {c : Nat} :
    ∀ {l : List (Position × Nat)}, Game.find.go p l = some c → p ∈ l.map Prod.fst := by
  intro l
  induction l with
  | nil =>
    intro h
    simp [Game.find.go] at h
  | cons x xs ih =>
    intro h
    obtain ⟨q, cc⟩ := x
    simp only [Game.find.go] at h
    simp only [List.map_cons, List.mem_cons]
    by_cases hpq : p = q
    · exact Or.inl hpq
    · rw [if_neg hpq] at h
      exact Or.inr (ih h)

theorem find_mem_domain {g : Game} {p : Position} {c : Nat}
    (h : g.find p = some c) : p ∈ g.map.map Prod.fst := by
  unfold Game.find at h
  exact find_go_mem h

theorem isNone_false_exists {g : Game} {p : Position}
    (h : (g.find p).isNone = false) : ∃ c, g.find p = some c := by
  cases hf : g.find p with
  | none => rw [hf] at h; cases h
  | some c => exact ⟨c, rfl⟩

theorem key_mem_allKeys {g : Game} {maxS : Nat} {e : Entry}
    (hpos : e.pos ∈ g.map.map Prod.fst) (hsteps : e.steps ≤ max maxS 1) :
    e.key ∈ allKeys g maxS := by
  unfold allKeys
  rw [List.mem_flatMap]
  refine ⟨e.pos, hpos, ?_⟩
  rw [List.mem_flatMap]
  refine ⟨e.dir, by cases e.dir <;> simp, ?_⟩
  rw [List.mem_map]
  exact ⟨e.steps, List.mem_range.mpr (by omega), rfl⟩

theorem countP_resInsert_le {res : Results} {k : ResKey} {v : Nat}
    {l : List ResKey} :
    l.countP (fun k' => ((resInsert res k v) k').isNone) ≤
      l.countP (fun k' => (res k').isNone) := by
  apply List.countP_mono_left
  intro a _ ha
  unfold resInsert at ha
  by_cases hak : a = k
  · rw [if_pos hak] at ha
    cases ha
  · rwa [if_neg hak] at ha

theorem countP_resInsert_lt {res : Results} {k : ResKey} {v : Nat} :
    ∀ {l : List ResKey}, k ∈ l → res k = none →
      l.countP (fun k' => ((resInsert res k v) k').isNone) <
        l.countP (fun k' => (res k').isNone) := by
  intro l
  induction l with
  | nil =>
    intro h
    cases h
  | cons x xs ih =>
    intro hk hnone
    rw [List.countP_cons, List.countP_cons]
    rcases List.mem_cons.mp hk with rfl | hk'
    · have h1 : ((resInsert res k v) k).isNone = false := by simp [resInsert]
      have h2 : (res k).isNone = true := by simp [hnone]
      have hle := @countP_resInsert_le res k v xs
      rw [h1, h2]
      simp only [Bool.false_eq_true, if_false, if_true]
      omega
    · have hle1 : (if ((resInsert res k v) x).isNone = true then 1 else 0) ≤
          (if (res x).isNone = true then 1 else 0) := by
        by_cases hxk : x = k
        · subst hxk
          simp [resInsert]
        · simp [resInsert, hxk]
      have hlt := ih hk' hnone
      omega

theorem unrec_lt_of_record {g : Game} {maxS : Nat} {res : Results} {k : ResKey} {v : Nat}
    (hk : k ∈ allKeys g maxS) (hnone : res k = none) :
    unrecCount g maxS (resInsert res k v) < unrecCount g maxS res :=
  countP_resInsert_lt hk hnone

theorem minSlack_cons {minS : Nat} {e : Entry} {q : List Entry} :
    minSlack minS (e :: q) = (minS - e.steps) + minSlack minS q := by
  simp [minSlack]

theorem minSlack_qInsert {minS : Nat} {en : Entry} : ∀ {q : List Entry},
    minSlack minS (qInsert en q) ≤ (minS - en.steps) + minSlack minS q := by
  intro q
  induction q with
  | nil => simp [qInsert, minSlack]
  | cons x xs ih =>
    simp only [qInsert]
    split
    · simp only [minSlack_cons]
      omega
    · split
      · exact Nat.le_add_left _ _
      · simp only [minSlack_cons]
        omega

theorem succ_heat_ge {g : Game} {minS maxS : Nat} {e en : Entry}
    (h : en ∈ succEntries g minS maxS e) : e.heat ≤ en.heat := by
  rcases mem_succEntries.mp h with ⟨_, hc⟩ | ⟨_, t, hc⟩
  · obtain ⟨c, _, rfl⟩ := cne_none_iff.mp hc
    exact Nat.le_add_right _ _
  · obtain ⟨c, _, rfl⟩ := cne_turn_iff.mp hc
    exact Nat.le_add_right _ _

theorem succ_steps_bound {g : Game} {minS maxS : Nat} {e en : Entry}
    (h : en ∈ succEntries g minS maxS e) : en.steps ≤ max maxS 1 := by
  have hmx := Nat.le_max_left maxS 1
  have hmx1 := Nat.le_max_right maxS 1
  rcases mem_succEntries.mp h with ⟨hlt, hc⟩ | ⟨_, t, hc⟩
  · obtain ⟨c, _, rfl⟩ := cne_none_iff.mp hc
    show e.steps + 1 ≤ max maxS 1
    omega
  · obtain ⟨c, _, rfl⟩ := cne_turn_iff.mp hc
    exact hmx1

theorem succ_below_min {g : Game} {minS maxS : Nat} {e : Entry}
    (h : ¬ minS ≤ e.steps) :
    succEntries g minS maxS e = [] ∨
    ∃ en, succEntries g minS maxS e = [en] ∧ en.steps = e.steps + 1 := by
  unfold succEntries
  rw [if_neg h, List.append_nil]
  split
  · cases hc : g.calculate_next_entry e.pos e.dir e.heat e.steps none with
    | none =>
      left
      rfl
    | some en =>
      right
      obtain ⟨c, _, rfl⟩ := cne_none_iff.mp hc
      exact ⟨_, rfl, rfl⟩
  · left
    rfl

theorem head_le_heats {e : Entry} {rest : List Entry}
    (hs : (e :: rest).Pairwise Entry.lt) {x : Entry} (hx : x ∈ rest) :
    e.heat ≤ x.heat :=
  Entry.lt_heat_le ((List.pairwise_cons.mp hs).1 x hx)

/-- The three loop invariants used for termination are preserved by a
continuing iteration: sortedness of the frontier, the ledger values
bounding all frontier heats from below, and the step bound. -/
theorem iter_preserve {g : Game} {minS maxS : Nat} {e : Entry} {rest : List Entry}
    {res : Results} {q' : List Entry} {res' : Results}
    (hit : loopIter g minS maxS e rest res = .inr (q', res'))
    (hsort : (e :: rest).Pairwise Entry.lt)
    (hJ : ∀ x ∈ e :: rest, ∀ k v, res k = some v → v ≤ x.heat)
    (hB : ∀ x ∈ e :: rest, x.steps ≤ max maxS 1) :
    q'.Pairwise Entry.lt ∧
    (∀ x ∈ q', ∀ k v, res' k = some v → v ≤ x.heat) ∧
    (∀ x ∈ q', x.steps ≤ max maxS 1) := by
  have hsort' := (List.pairwise_cons.mp hsort).2
  rcases loopIter_inr_spec hit with ⟨_, rfl, rfl⟩ | ⟨hmap, hstale, hgoal, hq, hres⟩
  · refine ⟨hsort', ?_, ?_⟩
    · intro x hx
      exact hJ x (List.mem_cons_of_mem e hx)
    · intro x hx
      exact hB x (List.mem_cons_of_mem e hx)
  · subst hq
    refine ⟨foldl_qInsert_sorted hsort', ?_, ?_⟩
    · intro x hx k v hkv
      have hvbound : v ≤ e.heat := by
        rw [hres] at hkv
        by_cases hms : minS ≤ e.steps
        · rw [if_pos hms] at hkv
          unfold resInsert at hkv
          by_cases hkk : k = e.key
          · rw [if_pos hkk] at hkv
            injection hkv with hv
            omega
          · rw [if_neg hkk] at hkv
            exact hJ e (List.mem_cons_self e rest) k v hkv
        · rw [if_neg hms] at hkv
          exact hJ e (List.mem_cons_self e rest) k v hkv
      rcases mem_foldl_qInsert.mp hx with hx' | hx'
      · exact le_trans hvbound (head_le_heats hsort hx')
      · exact le_trans hvbound (succ_heat_ge hx')
    · intro x hx
      rcases mem_foldl_qInsert.mp hx with hx' | hx'
      · exact hB x (List.mem_cons_of_mem e hx')
      · exact succ_steps_bound hx'

/-- Core termination argument: by well-founded descent on the number of
unrecorded ledger keys (which strictly drops whenever a processed state
with `steps ≥ min_steps` is recorded — such a state is never already in
the ledger, by the heat lower bound invariant), and, at equal ledger, on
the frontier's below-minimum slack plus its length (which strictly drops
on skipped pops and on processed states with `steps < min_steps`, whose
only successor is the straight extension with larger `steps`). -/
theorem terminates_aux (g : Game) (minS maxS : Nat) :
    ∀ a b : Nat, ∀ q : List Entry, ∀ res : Results,
      unrecCount g maxS res ≤ a →
      minSlack minS q + q.length ≤ b →
      q.Pairwise Entry.lt →
      (∀ x ∈ q, ∀ k v, res k = some v → v ≤ x.heat) →
      (∀ x ∈ q, x.steps ≤ max maxS 1) →
      ∃ fuel r, runLoop g minS maxS fuel q res = some r := by
  intro a
  induction a using Nat.strong_induction_on with
  | _ a iha =>
  intro b
  induction b with
  | zero =>
    intro q res ha hb hsort hJ hB
    cases q with
    | nil => exact ⟨1, _, runLoop_nil⟩
    | cons e rest =>
      exfalso
      rw [List.length_cons] at hb
      omega
  | succ b ihb =>
    intro q res ha hb hsort hJ hB
    cases q with
    | nil => exact ⟨1, _, runLoop_nil⟩
    | cons e rest =>
      cases hit : loopIter g minS maxS e rest res with
      | inl r =>
        exact ⟨1, r, by rw [runLoop_cons, hit]⟩
      | inr p =>
        obtain ⟨q', res'⟩ := p
        have hpres := iter_preserve hit hsort hJ hB
        have hrec : ∃ fuel r, runLoop g minS maxS fuel q' res' = some r := by
          rcases loopIter_inr_spec hit with ⟨_, rfl, rfl⟩ | ⟨hmap, hstale, hgoal, hq, hres⟩
          · refine ihb q' res' ha ?_ hpres.1 hpres.2.1 hpres.2.2
            rw [minSlack_cons, List.length_cons] at hb
            omega
          · by_cases hms : minS ≤ e.steps
            · have hfresh : res e.key = none := by
                cases hres2 : res e.key with
                | none => rfl
                | some ex =>
                  exfalso
                  have hex : ex ≤ e.heat :=
                    hJ e (List.mem_cons_self e rest) _ _ hres2
                  have hst : stale res e.key e.heat = true := by
                    unfold stale
                    rw [hres2]
                    exact decide_eq_true hex
                  rw [hstale] at hst
                  cases hst
              obtain ⟨c, hfc⟩ := isNone_false_exists hmap
              have hkmem : e.key ∈ allKeys g maxS :=
                key_mem_allKeys (find_mem_domain hfc)
                  (hB e (List.mem_cons_self e rest))
              have hdec : unrecCount g maxS res' < unrecCount g maxS res := by
                rw [hres, if_pos hms]
                exact unrec_lt_of_record hkmem hfresh
              exact iha (unrecCount g maxS res') (lt_of_lt_of_le hdec ha)
                (minSlack minS q' + q'.length) q' res' (le_refl _) (le_refl _)
                hpres.1 hpres.2.1 hpres.2.2
            · have hres' : res' = res := by rw [hres, if_neg hms]
              rcases succ_below_min hms with hsucc | ⟨en, hsucc, hen⟩
              · have hq' : q' = rest := by rw [hq, hsucc]; rfl
                refine ihb q' res' (by rw [hres']; exact ha) ?_
                  hpres.1 hpres.2.1 hpres.2.2
                rw [hq']
                rw [minSlack_cons, List.length_cons] at hb
                omega
              · have hq' : q' = qInsert en rest := by rw [hq, hsucc]; rfl
                refine ihb q' res' (by rw [hres']; exact ha) ?_
                  hpres.1 hpres.2.1 hpres.2.2
                rw [hq']
                have h1 := @minSlack_qInsert minS en rest
                have h2 := @length_qInsert en rest
                rw [minSlack_cons, List.length_cons] at hb
                rw [hen] at h1
                omega
        obtain ⟨fuel, r, hrun⟩ := hrec
        exact ⟨fuel + 1, r, by rw [runLoop_cons, hit]; exact hrun⟩

/-- `Game::puzzle` always terminates with some result. -/
theorem puzzle_terminates (g : Game) (minS maxS : Nat) :
    ∃ fuel r, g.puzzle minS maxS fuel = some r := by
  refine terminates_aux g minS maxS (unrecCount g maxS emptyResults)
    (minSlack minS seedQueue + seedQueue.length) seedQueue emptyResults
    (le_refl _) (le_refl _) ?_ ?_ ?_
  · refine List.Pairwise.cons ?_ (List.Pairwise.cons ?_ List.Pairwise.nil)
    · intro x hx
      rw [List.mem_singleton] at hx
      subst hx
      decide
    · intro x hx
      cases hx
  · intro x _ k v hkv
    simp [emptyResults] at hkv
  · intro x hx
    have hx0 : x.steps = 0 := by
      rcases List.mem_cons.mp hx with rfl | hx'
      · rfl
      · rcases List.mem_cons.mp hx' with rfl | hx''
        · rfl
        · cases hx''
    rw [hx0]
    exact Nat.zero_le _

end Day17

namespace Day17

/-- C9: for every (finite) grid and every configuration, the search loop of
`Game::puzzle` terminates: some finite fuel (number of loop iterations)
suffices for the loop to finish with a result, even when some cell costs
are 0.  The descent is exactly the claim's mechanism: the ledger ranges
over the finite augmented key space `allKeys` (grid cells × 4 directions ×
bounded run), processed states with `run ≥ minRun` each record a fresh key
there (ledger deduplication), and the remaining iterations shrink the
frontier measure. -/
theorem C9_loop_terminates (g : Game) (minS maxS : Nat) :
    ∃ fuel r, g.puzzle minS maxS fuel = some r :=
  puzzle_terminates g minS maxS

end Day17

namespace Day17

/-! ### Optimality machinery: basic coverage lemmas -/

theorem dcov_qw {g : Game} {minS maxS : Nat} {q : List Entry} {res : Results}
    {fc : Nat} {k : ResKey} {w : Nat}
    (h : ∃ e ∈ q, e.key = k ∧ e.heat ≤ w) :
    Dcov g minS maxS q res fc k w := by
  cases fc with
  | zero => exact Or.inl h
  | succ fc => exact Or.inl h

theorem dcov_res {g : Game} {minS maxS : Nat} {q : List Entry} {res : Results}
    {fc : Nat} {k : ResKey} {w : Nat}
    (h : ∃ v, res k = some v ∧ v ≤ w) :
    Dcov g minS maxS q res fc k w := by
  cases fc with
  | zero => exact Or.inr h
  | succ fc => exact Or.inr (Or.inl h)

theorem chase_qw {g : Game} {minS maxS : Nat} {q : List Entry} {res : Results}
    {fc : Nat} {k : ResKey} {w : Nat}
    (h : ∃ e ∈ q, e.heat ≤ w) :
    Chase g minS maxS q res fc k w := by
  cases fc with
  | zero => exact Or.inl h
  | succ fc => exact Or.inl h

theorem chase_res {g : Game} {minS maxS : Nat} {q : List Entry} {res : Results}
    {fc : Nat} {k : ResKey} {w : Nat}
    (h : ∃ v, res k = some v ∧ v ≤ w) :
    Chase g minS maxS q res fc k w := by
  cases fc with
  | zero => exact Or.inr h
  | succ fc => exact Or.inr (Or.inl h)

theorem chase_out {g : Game} {minS maxS : Nat} {q : List Entry} {res : Results}
    {fc : Nat} {k : ResKey} {w : Nat}
    (h : Chase g minS maxS q res fc k w) :
    (∃ e ∈ q, e.heat ≤ w) ∨ (∃ v, res k = some v ∧ v ≤ w) ∨
    (k.2.2 < minS ∧ 0 < fc ∧
      ∀ c, k.2.2 < maxS → g.find (k.1.move_dir k.2.1) = some c →
        Chase g minS maxS q res (fc - 1) (k.1.move_dir k.2.1, k.2.1, k.2.2 + 1) (w + c)) := by
  cases fc with
  | zero =>
    rcases h with h | h
    · exact Or.inl h
    · exact Or.inr (Or.inl h)
  | succ fc =>
    rcases h with h | h | ⟨h1, h2⟩
    · exact Or.inl h
    · exact Or.inr (Or.inl h)
    · refine Or.inr (Or.inr ⟨h1, Nat.succ_pos fc, ?_⟩)
      rw [Nat.add_sub_cancel]
      exact h2

theorem chase_mono_w {g : Game} {minS maxS : Nat} {q : List Entry} {res : Results} :
    ∀ {fc : Nat} {k : ResKey} {w w' : Nat}, w ≤ w' →
      Chase g minS maxS q res fc k w → Chase g minS maxS q res fc k w' := by
  intro fc
  induction fc with
  | zero =>
    intro k w w' hw h
    rcases h with ⟨e, he, hh⟩ | ⟨v, hv, hvw⟩
    · exact Or.inl ⟨e, he, le_trans hh hw⟩
    · exact Or.inr ⟨v, hv, le_trans hvw hw⟩
  | succ fc ih =>
    intro k w w' hw h
    rcases h with ⟨e, he, hh⟩ | ⟨v, hv, hvw⟩ | ⟨h1, h2⟩
    · exact Or.inl ⟨e, he, le_trans hh hw⟩
    · exact Or.inr (Or.inl ⟨v, hv, le_trans hvw hw⟩)
    · refine Or.inr (Or.inr ⟨h1, ?_⟩)
      intro c hmax hfind
      exact ih (Nat.add_le_add_right hw c) (h2 c hmax hfind)

theorem dcov_chase {g : Game} {minS maxS : Nat} {q : List Entry} {res : Results} :
    ∀ {fc : Nat} {k : ResKey} {w : Nat},
      Dcov g minS maxS q res fc k w → Chase g minS maxS q res fc k w := by
  intro fc
  induction fc with
  | zero =>
    intro k w h
    rcases h with ⟨e, he, _, hh⟩ | h
    · exact Or.inl ⟨e, he, hh⟩
    · exact Or.inr h
  | succ fc ih =>
    intro k w h
    rcases h with ⟨e, he, _, hh⟩ | h | ⟨h1, h2⟩
    · exact Or.inl ⟨e, he, hh⟩
    · exact Or.inr (Or.inl h)
    · refine Or.inr (Or.inr ⟨h1, ?_⟩)
      intro c hmax hfind
      exact ih (h2 c hmax hfind)

theorem Legal_find_isSome {g : Game} {minS maxS : Nat}
    (hg0 : ∃ c0, g.find ⟨0, 0⟩ = some c0) :
    ∀ {p : Position} {d : Direction} {s h : Nat},
      Legal g minS maxS p d s h → ∃ c, g.find p = some c := by
  intro p d s h hleg
  induction hleg with
  | seedRight => exact hg0
  | seedDown => exact hg0
  | straight _ _ hfind _ => exact ⟨_, hfind⟩
  | turn _ _ _ hfind _ => exact ⟨_, hfind⟩

end Day17

namespace Day17

/-- Coverage transfer across one loop iteration: if the surviving frontier
entries remain, recorded ledger values persist, and the popped entry's key
stays covered at every budget at or above its heat, then every covered key
stays covered. -/
theorem dcov_preserve {g : Game} {minS maxS : Nat} {q q' : List Entry}
    {res res' : Results} {e : Entry}
    (hq : ∀ x ∈ q, x ≠ e → x ∈ q')
    (hres : ∀ k v, res k = some v → res' k = some v)
    (he : ∀ w, e.heat ≤ w → DcovAt g minS maxS q' res' e.key w) :
    ∀ {fc : Nat} {k : ResKey} {w : Nat}, fc = minS - k.2.2 →
      Dcov g minS maxS q res fc k w → Dcov g minS maxS q' res' fc k w := by
  intro fc
  induction fc with
  | zero =>
    intro k w hlink h
    rcases h with ⟨x, hx, hk, hh⟩ | ⟨v, hv, hvw⟩
    · by_cases hxe : x = e
      · subst hxe
        have hc := he w hh
        unfold DcovAt at hc
        rw [hk] at hc
        rw [← hlink] at hc
        exact hc
      · exact dcov_qw ⟨x, hq x hx hxe, hk, hh⟩
    · exact dcov_res ⟨v, hres k v hv, hvw⟩
  | succ fc ih =>
    intro k w hlink h
    rcases h with ⟨x, hx, hk, hh⟩ | ⟨v, hv, hvw⟩ | ⟨h1, h2⟩
    · by_cases hxe : x = e
      · subst hxe
        have hc := he w hh
        unfold DcovAt at hc
        rw [hk] at hc
        rw [← hlink] at hc
        exact hc
      · exact dcov_qw ⟨x, hq x hx hxe, hk, hh⟩
    · exact dcov_res ⟨v, hres k v hv, hvw⟩
    · refine Or.inr (Or.inr ⟨h1, ?_⟩)
      intro c hmax hfind
      refine ih ?_ (h2 c hmax hfind)
      show fc = minS - (k.2.2 + 1)
      omega

/-- `Cov` is preserved under the same transfer conditions. -/
theorem cov_preserve {g : Game} {minS maxS : Nat} {q q' : List Entry}
    {res res' : Results} {e : Entry}
    (hq : ∀ x ∈ q, x ≠ e → x ∈ q')
    (hres : ∀ k v, res k = some v → res' k = some v)
    (he : ∀ w, e.heat ≤ w → DcovAt g minS maxS q' res' e.key w) :
    ∀ {p : Position} {d : Direction} {s h : Nat},
      Cov g minS maxS q res p d s h → Cov g minS maxS q' res' p d s h := by
  intro p d s h hcov
  induction hcov with
  | here hd => exact Cov.here (dcov_preserve hq hres he rfl hd)
  | straight _ hs hfind ih => exact Cov.straight ih hs hfind
  | turn t _ hs hfind ih => exact Cov.turn t ih hs hfind

/-- A covered legal state is chased: under ledger closure, coverage of some
derivation prefix propagates along the derivation to the state itself. -/
theorem cov_chase {g : Game} {minS maxS : Nat} {q : List Entry} {res : Results}
    (hRC : ResClosed g minS maxS q res) :
    ∀ {p : Position} {d : Direction} {s h : Nat},
      Cov g minS maxS q res p d s h →
      Chase g minS maxS q res (minS - s) (p, d, s) h := by
  intro p d s h hcov
  induction hcov with
  | here hd => exact dcov_chase hd
  | straight hcv hs hfind ih =>
    rcases chase_out ih with hqw | ⟨v, hv, hvw⟩ | ⟨hlt, hfc, hchain⟩
    · rcases hqw with ⟨x, hx, hh⟩
      exact chase_qw ⟨x, hx, le_trans hh (Nat.le_add_right _ _)⟩
    · have hd := (hRC _ _ _ v hv).1 _ hs hfind
      exact chase_mono_w (Nat.add_le_add_right hvw _) (dcov_chase hd)
    · have hgoal := hchain _ hs hfind
      rw [Nat.sub_sub] at hgoal
      exact hgoal
  | turn t hcv hs hfind ih =>
    rcases chase_out ih with hqw | ⟨v, hv, hvw⟩ | ⟨hlt, _⟩
    · rcases hqw with ⟨x, hx, hh⟩
      exact chase_qw ⟨x, hx, le_trans hh (Nat.le_add_right _ _)⟩
    · have hd := (hRC _ _ _ v hv).2 t _ hs hfind
      exact chase_mono_w (Nat.add_le_add_right hvw _) (dcov_chase hd)
    · exact absurd hs (Nat.not_le.mpr hlt)

/-- A chased goal-accepting key forces a frontier entry at or below the
budget: it cannot be recorded (`GoalFree`) and cannot be a below-minimum
chain (`minRun ≤ run`). -/
theorem chase_goal {g : Game} {minS maxS : Nat} {q : List Entry} {res : Results}
    (hGF : GoalFree g minS res) {d : Direction} {s c : Nat} (hs : minS ≤ s)
    (h : Chase g minS maxS q res (minS - s) (g.endPos, d, s) c) :
    ∃ e ∈ q, e.heat ≤ c := by
  rcases chase_out h with hqw | ⟨v, hv, _⟩ | ⟨hlt, _⟩
  · exact hqw
  · rw [hGF d s hs] at hv
    cases hv
  · exact absurd hs (Nat.not_le.mpr hlt)

end Day17

namespace Day17

/-- The loop invariant is preserved by every continuing iteration, provided
the start cell is on the grid. -/
theorem loopInv_preserve {g : Game} {minS maxS : Nat} {e : Entry}
    {rest : List Entry} {res : Results} {q' : List Entry} {res' : Results}
    (hg0 : ∃ c0, g.find ⟨0, 0⟩ = some c0)
    (hit : loopIter g minS maxS e rest res = .inr (q', res'))
    (hinv : LoopInv g minS maxS (e :: rest) res) :
    LoopInv g minS maxS q' res' := by
  obtain ⟨hsort, hJ, hB, hLeg, hGF, hRC, hM⟩ := hinv
  have hpres := iter_preserve hit hsort hJ hB
  have hein : (g.find e.pos).isNone = false := by
    obtain ⟨c, hc⟩ := Legal_find_isSome hg0 (hLeg e (List.mem_cons_self e rest))
    rw [hc]
    rfl
  rcases loopIter_inr_spec hit with ⟨hskip, hq, hres⟩ | ⟨hmap, hstale, hgoal, hq, hres⟩
  · -- skipped pop: under the invariant it can only be the stale skip
    subst hq
    subst hres
    rcases hskip with h1 | h1
    · rw [hein] at h1
      cases h1
    · have hv : ∃ v, res' e.key = some v ∧ v ≤ e.heat := by
        unfold stale at h1
        cases hres2 : res' e.key with
        | none =>
          rw [hres2] at h1
          cases h1
        | some ex =>
          rw [hres2] at h1
          exact ⟨ex, rfl, of_decide_eq_true h1⟩
      have hqcond : ∀ x ∈ e :: q', x ≠ e → x ∈ q' := by
        intro x hx hne
        rcases List.mem_cons.mp hx with rfl | h
        · exact absurd rfl hne
        · exact h
      have hrescond : ∀ k v, res' k = some v → res' k = some v := fun _ _ h => h
      have he : ∀ w, e.heat ≤ w → DcovAt g minS maxS q' res' e.key w := by
        intro w hw
        obtain ⟨v, hv1, hv2⟩ := hv
        exact dcov_res ⟨v, hv1, le_trans hv2 hw⟩
      refine ⟨hpres.1, hpres.2.1, hpres.2.2, ?_, hGF, ?_, ?_⟩
      · intro x hx
        exact hLeg x (List.mem_cons_of_mem e hx)
      · intro p d s v hkv
        have hold := hRC p d s v hkv
        exact ⟨fun c hmax hfind => dcov_preserve hqcond hrescond he rfl (hold.1 c hmax hfind),
          fun t c hmin hfind => dcov_preserve hqcond hrescond he rfl (hold.2 t c hmin hfind)⟩
      · intro p d s h hleg
        exact cov_preserve hqcond hrescond he (hM p d s h hleg)
  · -- processed pop
    subst hq
    have hqcond : ∀ x ∈ e :: rest, x ≠ e →
        x ∈ (succEntries g minS maxS e).foldl (fun q en => qInsert en q) rest := by
      intro x hx hne
      rcases List.mem_cons.mp hx with rfl | h
      · exact absurd rfl hne
      · exact mem_foldl_qInsert.mpr (Or.inl h)
    have hsuccmem : ∀ en ∈ succEntries g minS maxS e,
        en ∈ (succEntries g minS maxS e).foldl (fun q en => qInsert en q) rest :=
      fun en hen => mem_foldl_qInsert.mpr (Or.inr hen)
    have hLeg' : ∀ x ∈ (succEntries g minS maxS e).foldl (fun q en => qInsert en q) rest,
        Legal g minS maxS x.pos x.dir x.steps x.heat := by
      intro x hx
      rcases mem_foldl_qInsert.mp hx with hx' | hx'
      · exact hLeg x (List.mem_cons_of_mem e hx')
      · have hle := hLeg e (List.mem_cons_self e rest)
        rcases mem_succEntries.mp hx' with ⟨hlt, hc⟩ | ⟨hge, t, hc⟩
        · obtain ⟨c, hfind, rfl⟩ := cne_none_iff.mp hc
          exact Legal.straight hle hlt hfind
        · obtain ⟨c, hfind, rfl⟩ := cne_turn_iff.mp hc
          exact Legal.turn t hle hge hfind
    by_cases hms : minS ≤ e.steps
    · -- recorded
      have hres2 : res' = resInsert res e.key e.heat := by
        rw [hres, if_pos hms]
      subst hres2
      have hfresh : res e.key = none := by
        cases hres3 : res e.key with
        | none => rfl
        | some ex =>
          exfalso
          have hex : ex ≤ e.heat :=
            hJ e (List.mem_cons_self e rest) _ _ hres3
          have hst : stale res e.key e.heat = true := by
            unfold stale
            rw [hres3]
            exact decide_eq_true hex
          rw [hstale] at hst
          cases hst
      have hrescond : ∀ k v, res k = some v → resInsert res e.key e.heat k = some v := by
        intro k v hkv
        unfold resInsert
        by_cases hk : k = e.key
        · subst hk
          rw [hfresh] at hkv
          cases hkv
        · rw [if_neg hk]
          exact hkv
      have he : ∀ w, e.heat ≤ w → DcovAt g minS maxS
          ((succEntries g minS maxS e).foldl (fun q en => qInsert en q) rest)
          (resInsert res e.key e.heat) e.key w := by
        intro w hw
        exact dcov_res ⟨e.heat, by simp [resInsert], hw⟩
      refine ⟨hpres.1, hpres.2.1, hpres.2.2, hLeg', ?_, ?_, ?_⟩
      · -- GoalFree
        intro d s hs
        unfold resInsert
        rw [if_neg ?_]
        · exact hGF d s hs
        · intro heq
          unfold Entry.key at heq
          injection heq with he1 he2
          injection he2 with he2 he3
          exact hgoal ⟨hms, he1.symm⟩
      · -- ResClosed
        intro p d s v hkv
        unfold resInsert at hkv
        by_cases hk : (p, d, s) = e.key
        · rw [if_pos hk] at hkv
          injection hkv with hv
          unfold Entry.key at hk
          injection hk with h1 h2
          injection h2 with h2 h3
          subst h1
          subst h2
          subst h3
          constructor
          · intro c hmax hfind
            have hmem : (⟨e.pos.move_dir e.dir, e.dir, e.steps + 1, e.heat + c⟩ : Entry) ∈
                succEntries g minS maxS e :=
              mem_succEntries.mpr (Or.inl ⟨hmax, cne_none_iff.mpr ⟨c, hfind, rfl⟩⟩)
            refine dcov_qw ⟨_, hsuccmem _ hmem, rfl, ?_⟩
            show e.heat + c ≤ v + c
            omega
          · intro t c hmin hfind
            have hmem : (⟨e.pos.move_dir (e.dir.turn t), e.dir.turn t, 1, e.heat + c⟩ : Entry) ∈
                succEntries g minS maxS e :=
              mem_succEntries.mpr (Or.inr ⟨hms, t, cne_turn_iff.mpr ⟨c, hfind, rfl⟩⟩)
            refine dcov_qw ⟨_, hsuccmem _ hmem, rfl, ?_⟩
            show e.heat + c ≤ v + c
            omega
        · rw [if_neg hk] at hkv
          have hold := hRC p d s v hkv
          exact ⟨fun c hmax hfind => dcov_preserve hqcond hrescond he rfl (hold.1 c hmax hfind),
            fun t c hmin hfind => dcov_preserve hqcond hrescond he rfl (hold.2 t c hmin hfind)⟩
      · intro p d s h hleg
        exact cov_preserve hqcond hrescond he (hM p d s h hleg)
    · -- not recorded: steps below minimum
      have hres2 : res' = res := by
        rw [hres, if_neg hms]
      subst hres2
      have hrescond : ∀ k v, res' k = some v → res' k = some v := fun _ _ h => h
      have he : ∀ w, e.heat ≤ w → DcovAt g minS maxS
          ((succEntries g minS maxS e).foldl (fun q en => qInsert en q) rest)
          res' e.key w := by
        intro w hw
        unfold DcovAt
        have hfc : ∃ fc, minS - (e.key).2.2 = fc + 1 := by
          refine ⟨minS - e.steps - 1, ?_⟩
          show minS - e.steps = _
          omega
        obtain ⟨fc, hfc⟩ := hfc
        rw [hfc]
        refine Or.inr (Or.inr ⟨?_, ?_⟩)
        · show e.steps < minS
          omega
        · intro c hmax hfind
          have hmem : (⟨e.pos.move_dir e.dir, e.dir, e.steps + 1, e.heat + c⟩ : Entry) ∈
              succEntries g minS maxS e :=
            mem_succEntries.mpr (Or.inl ⟨hmax, cne_none_iff.mpr ⟨c, hfind, rfl⟩⟩)
          exact dcov_qw ⟨_, hsuccmem _ hmem, rfl, Nat.add_le_add_right hw c⟩
      refine ⟨hpres.1, hpres.2.1, hpres.2.2, hLeg', hGF, ?_, ?_⟩
      · intro p d s v hkv
        have hold := hRC p d s v hkv
        exact ⟨fun c hmax hfind => dcov_preserve hqcond hrescond he rfl (hold.1 c hmax hfind),
          fun t c hmin hfind => dcov_preserve hqcond hrescond he rfl (hold.2 t c hmin hfind)⟩
      · intro p d s h hleg
        exact cov_preserve hqcond hrescond he (hM p d s h hleg)

/-- The loop invariant holds at the start of the search. -/
theorem loopInv_init {g : Game} {minS maxS : Nat} :
    LoopInv g minS maxS seedQueue emptyResults := by
  refine ⟨?_, ?_, ?_, ?_, ?_, ?_, ?_⟩
  · refine List.Pairwise.cons ?_ (List.Pairwise.cons ?_ List.Pairwise.nil)
    · intro x hx
      rw [List.mem_singleton] at hx
      subst hx
      decide
    · intro x hx
      cases hx
  · intro x _ k v hkv
    simp [emptyResults] at hkv
  · intro x hx
    have hx0 : x.steps = 0 := by
      rcases List.mem_cons.mp hx with rfl | hx'
      · rfl
      · rcases List.mem_cons.mp hx' with rfl | hx''
        · rfl
        · cases hx''
    rw [hx0]
    exact Nat.zero_le _
  · intro x hx
    rcases List.mem_cons.mp hx with rfl | hx'
    · exact Legal.seedDown
    · rcases List.mem_cons.mp hx' with rfl | hx''
      · exact Legal.seedRight
      · cases hx''
  · intro d s _
    rfl
  · intro p d s v hkv
    simp [emptyResults] at hkv
  · intro p d s h hleg
    induction hleg with
    | seedRight =>
      refine Cov.here (dcov_qw ⟨⟨⟨0, 0⟩, .right, 0, 0⟩, ?_, rfl, le_refl 0⟩)
      simp [seedQueue]
    | seedDown =>
      refine Cov.here (dcov_qw ⟨⟨⟨0, 0⟩, .down, 0, 0⟩, ?_, rfl, le_refl 0⟩)
      simp [seedQueue]
    | straight _ hs hfind ih => exact Cov.straight ih hs hfind
    | turn t _ hs hfind ih => exact Cov.turn t ih hs hfind

end Day17

namespace Day17

/-- Main correctness of the search loop under the loop invariant: a returned
numeric cost is the cost of a legal goal path and is minimal among all
legal goal-path costs; an unreachable failure means no legal goal path
exists. -/
theorem runLoop_correct {g : Game} {minS maxS : Nat}
    (hg0 : ∃ c0, g.find ⟨0, 0⟩ = some c0) :
    ∀ {fuel : Nat} {q : List Entry} {res : Results},
      LoopInv g minS maxS q res →
      (∀ c, runLoop g minS maxS fuel q res = some (.ok c) →
        GoalCost g minS maxS c ∧ ∀ c', GoalCost g minS maxS c' → c ≤ c') ∧
      (runLoop g minS maxS fuel q res = some (.error .endUnreachable) →
        ∀ c', ¬ GoalCost g minS maxS c') := by
  intro fuel
  induction fuel with
  | zero =>
    intro q res _
    constructor
    · intro c h
      rw [runLoop_zero] at h
      cases h
    · intro h
      rw [runLoop_zero] at h
      cases h
  | succ n ih =>
    intro q res hinv
    obtain ⟨hsort, hJ, hB, hLeg, hGF, hRC, hM⟩ := hinv
    cases q with
    | nil =>
      constructor
      · intro c h
        rw [runLoop_nil, Option.some_inj] at h
        exact Except.noConfusion h
      · intro _ c' hgc
        obtain ⟨d, s, hleg, hs⟩ := hgc
        obtain ⟨x, hx, _⟩ := chase_goal hGF hs (cov_chase hRC (hM _ _ _ _ hleg))
        cases hx
    | cons e rest =>
      cases hit : loopIter g minS maxS e rest res with
      | inl r =>
        have hh := loopIter_inl_iff.mp hit
        constructor
        · intro c h
          rw [runLoop_cons, hit, Option.some_inj] at h
          rw [hh.2.2.2.2] at h
          injection h with hc
          constructor
          · refine ⟨e.dir, e.steps, ?_, hh.2.2.1⟩
            rw [← hc, ← hh.2.2.2.1]
            exact hLeg e (List.mem_cons_self e rest)
          · intro c' hgc
            obtain ⟨d, s, hleg, hs⟩ := hgc
            obtain ⟨x, hx, hxc⟩ := chase_goal hGF hs (cov_chase hRC (hM _ _ _ _ hleg))
            have hex : e.heat ≤ x.heat := by
              rcases List.mem_cons.mp hx with rfl | hx'
              · exact le_refl _
              · exact head_le_heats hsort hx'
            omega
        · intro h
          rw [runLoop_cons, hit, Option.some_inj] at h
          rw [hh.2.2.2.2] at h
          exact Except.noConfusion h
      | inr p =>
        obtain ⟨q2, res2⟩ := p
        have hinv2 : LoopInv g minS maxS q2 res2 :=
          loopInv_preserve hg0 hit ⟨hsort, hJ, hB, hLeg, hGF, hRC, hM⟩
        have hrec := ih hinv2
        constructor
        · intro c h
          rw [runLoop_cons, hit] at h
          exact hrec.1 c h
        · intro h
          rw [runLoop_cons, hit] at h
          exact hrec.2 h

end Day17

namespace Day17

/-- The 1×1 grid with cell cost 5 is a well-formed rectangle. -/
theorem rect_game1 : Rect (game1 5) := by
  refine ⟨le_refl 0, le_refl 0, ?_⟩
  intro p
  constructor
  · rintro ⟨c, hc⟩
    have hp := find_mem_domain hc
    simp [game1] at hp
    rw [hp]
    exact ⟨le_refl 0, le_refl 0, le_refl 0, le_refl 0⟩
  · rintro ⟨h1, h2, h3, h4⟩
    have hx : p.x = 0 := le_antisymm h2 h1
    have hy : p.y = 0 := le_antisymm h4 h3
    have hp : p = ⟨0, 0⟩ := by
      obtain ⟨px, py⟩ := p
      simp only at hx hy
      rw [hx, hy]
    rw [hp]
    exact ⟨5, rfl⟩

/-- C1: for every non-empty rectangular grid (every in-bounds cell carries a
cost — nonnegativity is intrinsic to the `u64`/`Nat` cost type) and every
configuration with `maxRun ≥ max(minRun, 1)`, `Game::puzzle` returns the
minimum accumulated cost over all paths from `(0,0)` to
`(width-1, height-1)` obeying the run-length and no-reversal rules (a
returned cost is such a path cost and no such path is cheaper), returns
the explicit `EndUnreachable` failure exactly when no such legal path
exists, and always returns one of the two. -/
theorem C1_puzzle_returns_min_legal_cost (g : Game) (minS maxS : Nat)
    (hrect : Rect g) (hconf : max minS 1 ≤ maxS) :
    (∀ c, Solves g minS maxS (.ok c) →
      GoalCost g minS maxS c ∧ ∀ c', GoalCost g minS maxS c' → c ≤ c') ∧
    (Solves g minS maxS (.error .endUnreachable) → ∀ c', ¬ GoalCost g minS maxS c') ∧
    ((∃ c, Solves g minS maxS (.ok c)) ∨ Solves g minS maxS (.error .endUnreachable)) := by
  have hg0 : ∃ c0, g.find ⟨0, 0⟩ = some c0 := by
    obtain ⟨hx, hy, hiff⟩ := hrect
    exact (hiff ⟨0, 0⟩).mpr ⟨le_refl 0, hx, le_refl 0, hy⟩
  refine ⟨?_, ?_, ?_⟩
  · rintro c ⟨fuel, h⟩
    exact (runLoop_correct hg0 loopInv_init).1 c h
  · rintro ⟨fuel, h⟩ c'
    exact (runLoop_correct hg0 loopInv_init).2 h c'
  · obtain ⟨fuel, r, h⟩ := puzzle_terminates g minS maxS
    cases r with
    | ok c => exact Or.inl ⟨c, fuel, h⟩
    | error err =>
      have herr : err = .endUnreachable :=
        runLoop_error_eq g minS maxS fuel seedQueue emptyResults err h
      rw [herr] at h
      exact Or.inr ⟨fuel, h⟩

/-- Witness for C1 on the 1×1 grid with cost 5 and configuration `(0, 3)`:
the returned cost 0 is a legal goal-path cost. -/
theorem C1_witness : GoalCost (game1 5) 0 3 0 :=
  ((C1_puzzle_returns_min_legal_cost (game1 5) 0 3 rect_game1 (by omega)).1
    0 ⟨1, rfl⟩).1

end Day17
